import Mathlib

/-!
Shallow embedding of the `dotenv` Go package (github.com/rickferrdev/dotenv).

Strings are modelled as `List Char`; Go byte strings in this code base are
ASCII in all relevant places, so one char per byte.  Every definition below
is translated from a named function of the source:

* `quotes`        — `quotes` in `unnamed/part_002` (identical copy in `unnamed/part_003`)
* `CollectDotenvGo` / `CollectPart001` — the two copies of `Collect`
  (`dotenv.go` and `unnamed/part_001`), which differ only in the
  comment-line test (`strings.HasPrefix("#", line)` versus
  `strings.HasPrefix(line, "#")`); file reads are modelled as a list of
  `Option` file contents (`none` = read error) and the environment
  side effect as the emitted list of `(key, value)` writes.
* `setField`, `Unmarshal`, `Marshal` — the struct mapper of
  `unnamed/part_001` / `unnamed/part_003`, with records modelled as lists
  of fields carrying a Go field name, an `env` tag and a scalar value.
-/

namespace Dotenv

/-- Character lists standing for Go strings. -/
abbrev Str := List Char

/-- Whitespace predicate of Go's `unicode.IsSpace` (used by `strings.TrimSpace`). -/
def goIsSpace (c : Char) : Bool :=
  let n := c.toNat
  (9 ≤ n && n ≤ 13) || n = 32 || n = 0x85 || n = 0xA0 ||
  n = 0x1680 || (0x2000 ≤ n && n ≤ 0x200A) || n = 0x2028 || n = 0x2029 ||
  n = 0x202F || n = 0x205F || n = 0x3000

/-- Model of Go `strings.TrimSpace`. -/
def trimSpace (s : Str) : Str :=
  ((s.dropWhile goIsSpace).reverse.dropWhile goIsSpace).reverse

/-- Model of Go `strings.Cut(s, sep)` for a one-character separator:
`(before, after, found)` around the first occurrence of `c`. -/
def cutChar (c : Char) : Str → Str × Str × Bool
  | [] => ([], [], false)
  | x :: xs =>
    if x = c then ([], xs, true)
    else
      let r := cutChar c xs
      (x :: r.1, r.2.1, r.2.2)

/-- Model of the `quotes` helper (`unnamed/part_002`, lines 13–29): strip a
matching leading/closing quote pair, otherwise drop a lone leading quote,
cut at the first `#` and trim whitespace. -/
def quotes (value : Str) : Str :=
  match value with
  | [] => []
  | q :: rest =>
    if q = '"' ∨ q = '\'' then
      let r := cutChar q rest
      if r.2.2 then r.1
      else trimSpace (cutChar '#' rest).1
    else trimSpace (cutChar '#' (q :: rest)).1

/-- Model of Go `strings.Split(s, "\n")`: always returns at least one piece,
with a trailing empty piece when the text ends in a newline. -/
def splitLines : Str → List Str
  | [] => [[]]
  | c :: rest =>
    if c = '\n' then [] :: splitLines rest
    else
      match splitLines rest with
      | [] => [[c]]
      | l :: ls => (c :: l) :: ls

/-- Literal `"export "` tested by both `Collect` copies. -/
def exportKw : Str := "export ".toList

/-- Export-keyword handling shared by both `Collect` copies: when the line
starts with `"export "`, `strings.TrimPrefix(line, "export")` drops the six
keyword characters and the remainder is trimmed. -/
def stripExport (line : Str) : Str :=
  if exportKw.isPrefixOf line then trimSpace (line.drop 6) else line

/-- Skip test of `Collect` in `dotenv.go` (line 38): the source reads
`line == "" || strings.HasPrefix("#", line)`, whose arguments are in the
order written there — it asks whether `line` is a prefix of `"#"`. -/
def skipDotenvGo (line : Str) : Bool :=
  line.isEmpty || line.isPrefixOf ['#']

/-- Skip test of `Collect` in `unnamed/part_001` (line 41):
`line == "" || strings.HasPrefix(line, "#")`. -/
def skipPart001 (line : Str) : Bool :=
  line.isEmpty || List.isPrefixOf ['#'] line

/-- Per-line body shared by both `Collect` copies, parameterised by the skip
test: strip `export`, maybe skip, cut at the first `=`, normalize the value.
The result is the list (zero or one) of environment writes for the line. -/
def procLine (skip : Str → Bool) (line : Str) : List (Str × Str) :=
  let line := stripExport line
  if skip line then []
  else
    let r := cutChar '=' line
    if r.2.2 then [(r.1, quotes r.2.1)] else []

/-- File body of `Collect`: files of at most one byte are ignored, otherwise
every line contributes its writes in order. -/
def collectFile (skip : Str → Bool) (content : Str) : List (Str × Str) :=
  if content.length ≤ 1 then []
  else (splitLines content).flatMap (procLine skip)

/-- Whole `Collect` run over the filename list: each entry is `none` when the
read fails (silently skipped) or `some content`.  The returned list is the
sequence of `os.Setenv` calls, in order. -/
def collectWrites (skip : Str → Bool) (files : List (Option Str)) : List (Str × Str) :=
  files.flatMap fun f =>
    match f with
    | none => []
    | some content => collectFile skip content

/-- The `Collect` of `src/dotenv.go`. -/
def CollectDotenvGo (files : List (Option Str)) : List (Str × Str) :=
  collectWrites skipDotenvGo files

/-- The `Collect` of `src/unnamed/part_001`. -/
def CollectPart001 (files : List (Option Str)) : List (Str × Str) :=
  collectWrites skipPart001 files

/-- Value of a decimal digit character, `none` for a non-digit
(the per-character test of `strconv.ParseUint` at base 10). -/
def digitVal? (c : Char) : Option Nat :=
  if '0' ≤ c ∧ c ≤ '9' then some (c.toNat - '0'.toNat) else none

/-- Accumulating digit scan of `strconv.ParseUint` at base 10 (without the
bit-size cutoff, which `goParseInt64` applies on the exact value):
`none` as soon as a non-digit appears. -/
def digitsVal? (s : Str) : Option Nat :=
  s.foldl (fun acc c => acc.bind fun a => (digitVal? c).map fun d => a * 10 + d) (some 0)

/-- Model of Go `strconv.ParseInt(s, 10, 64)` as used by `setField`:
optional sign, at least one decimal digit, and the value must fit a signed
64-bit integer; `none` stands for a returned non-nil error. -/
def goParseInt64 (s : Str) : Option Int :=
  match s with
  | [] => none
  | c :: rest =>
    let p := if c = '-' then (true, rest) else if c = '+' then (false, rest) else (false, s)
    if p.2 = [] then none
    else
      match digitsVal? p.2 with
      | none => none
      | some n =>
        if p.1 then (if n ≤ 2 ^ 63 then some (-(n : Int)) else none)
        else (if n < 2 ^ 63 then some (n : Int) else none)

/-- Model of Go `strconv.ParseBool`: a fixed twelve-literal case switch. -/
def goParseBool (s : Str) : Option Bool :=
  if s = "1".toList ∨ s = "t".toList ∨ s = "T".toList ∨
     s = "true".toList ∨ s = "TRUE".toList ∨ s = "True".toList then some true
  else if s = "0".toList ∨ s = "f".toList ∨ s = "F".toList ∨
     s = "false".toList ∨ s = "FALSE".toList ∨ s = "False".toList then some false
  else none

/-- Wrap-around (two's complement) of `reflect.Value.SetInt` when a 64-bit
parse result is stored into a `w`-bit signed field (Go's integer conversion
truncates, it never panics or errors). -/
def truncInt (w : Nat) (i : Int) : Int :=
  (i + 2 ^ (w - 1)) % 2 ^ w - 2 ^ (w - 1)

/-- Scalar value of a struct field, tagged with its Go kind.  Integer kinds
`int`, `int8` … `int64` are `vInt w` with `w` the bit width (64 for `int`). -/
inductive FieldVal where
  | vStr (s : Str)
  | vBool (b : Bool)
  | vInt (w : Nat) (i : Int)
  deriving DecidableEq, Repr

/-- One struct field as the reflection loop sees it: Go field name, the
`env` tag (`[]` when the tag is absent) and the current scalar value. -/
structure GoField where
  name : Str
  tag : Str
  val : FieldVal
  deriving DecidableEq, Repr

/-- Error returned by `Unmarshal`, carrying the failing field's name
(the source wraps the coercion error as
`fmt.Errorf("error setting field %s: %w", fieldType.Name, err)`). -/
structure DecodeError where
  fieldName : Str
  deriving DecidableEq, Repr

/-- Model of `setField` (`unnamed/part_003`, lines 37–62) on the scalar
kinds a field can have; `none` is a returned coercion error. -/
def setField (fv : FieldVal) (value : Str) : Option FieldVal :=
  match fv with
  | .vStr _ => some (.vStr value)
  | .vBool _ => (goParseBool value).map .vBool
  | .vInt w _ => (goParseInt64 value).map fun i => .vInt w (truncInt w i)

/-- Environment store as the ordered list of `Setenv` writes; lookup finds
the LAST write for a key, so later writes win. -/
abbrev Env := List (Str × Str)

/-- Last binding of a key in the store, if any. -/
def getenvOpt : Env → Str → Option Str
  | [], _ => none
  | (k', v) :: rest, k =>
    (getenvOpt rest k).or (if k' = k then some v else none)

/-- Model of `os.Getenv`: the empty string when the key is unset. -/
def getenv (env : Env) (k : Str) : Str :=
  (getenvOpt env k).getD []

/-- Model of `Unmarshal` (`unnamed/part_001`, lines 59–97) on a record given
as its field list: walk fields in declaration order, skip untagged fields
and fields whose environment value is empty, coerce the rest; on a coercion
failure return at once, leaving the current and all later fields unchanged.
The result is the record state after the call plus the returned error. -/
def Unmarshal (env : Env) : List GoField → List GoField × Option DecodeError
  | [] => ([], none)
  | f :: fs =>
    if f.tag = [] then
      let r := Unmarshal env fs
      (f :: r.1, r.2)
    else
      let value := getenv env f.tag
      if value = [] then
        let r := Unmarshal env fs
        (f :: r.1, r.2)
      else
        match setField f.val value with
        | none => (f :: fs, some ⟨f.name⟩)
        | some v =>
          let r := Unmarshal env fs
          ({ f with val := v } :: r.1, r.2)

/-- Decimal digits of `n`, most significant first, by fuelled division
(`fuel > n` makes it total); models the digit emission of `fmt.Sprintf("%v")`
on integers. -/
def natReprAux (fuel n : Nat) : Str :=
  match fuel with
  | 0 => []
  | fuel + 1 =>
    if n < 10 then [Nat.digitChar n]
    else natReprAux fuel (n / 10) ++ [Nat.digitChar (n % 10)]

/-- Decimal representation of a natural number. -/
def natRepr (n : Nat) : Str := natReprAux (n + 1) n

/-- Model of `fmt.Sprintf("%v", i)` for signed integers. -/
def intRepr (i : Int) : Str :=
  if i < 0 then '-' :: natRepr i.natAbs else natRepr i.toNat

/-- Model of `fmt.Sprintf("%v", field.Interface())` on the scalar kinds. -/
def formatVal : FieldVal → Str
  | .vStr s => s
  | .vBool b => if b then "true".toList else "false".toList
  | .vInt _ i => intRepr i

/-- Quote wrapping of `Marshal`: wrap in double quotes exactly when the
text contains a space character (`strings.Contains(value, " ")`). -/
def qwrap (v : Str) : Str :=
  if v.contains ' ' then '"' :: (v ++ ['"']) else v

/-- One output line of `Marshal` for a field (empty for an untagged field). -/
def marshalField (f : GoField) : Str :=
  if f.tag = [] then []
  else f.tag ++ '=' :: (qwrap (formatVal f.val) ++ ['\n'])

/-- Model of `Marshal` (`unnamed/part_001`, lines 101–134) on a record given
as its field list: concatenate one `KEY=VALUE` line per tagged field, in
declaration order. -/
def Marshal (fields : List GoField) : Str :=
  (fields.map marshalField).flatten

/-- Zero value of a field's kind, as in a freshly declared Go record. -/
def zeroVal : FieldVal → FieldVal
  | .vStr _ => .vStr []
  | .vBool _ => .vBool false
  | .vInt w _ => .vInt w 0

/-- Fresh same-typed field: same name and tag, zero value. -/
def zeroField (f : GoField) : GoField :=
  { f with val := zeroVal f.val }

/-- Per-field effect of one decode pass when no failure occurs at the field:
untagged fields and fields with an empty environment value are untouched,
the rest take the coerced value.  Used to state which fields are already
populated when a later field's coercion fails. -/
def updField (env : Env) (g : GoField) : GoField :=
  if g.tag = [] then g
  else
    let v := getenv env g.tag
    if v = [] then g
    else
      match setField g.val v with
      | some fv => { g with val := fv }
      | none => g

/-- Value-side hypotheses of the round-trip theorem: a string value may not
contain `#`, quote characters, or whitespace other than the space character;
an integer value must be in range for its declared width (as any value read
from a real Go field is), with a width between 1 and 64 bits. -/
@[reducible] def ValOK : FieldVal → Prop
  | .vStr s => ∀ c ∈ s, c ≠ '#' ∧ c ≠ '"' ∧ c ≠ '\'' ∧ (goIsSpace c = true → c = ' ')
  | .vBool _ => True
  | .vInt w i => 1 ≤ w ∧ w ≤ 64 ∧ -(2 ^ (w - 1)) ≤ i ∧ i < 2 ^ (w - 1)

instance : DecidablePred ValOK := fun fv => by
  cases fv with
  | vStr s =>
    exact inferInstanceAs
      (Decidable (∀ c ∈ s, c ≠ '#' ∧ c ≠ '"' ∧ c ≠ '\'' ∧ (goIsSpace c = true → c = ' ')))
  | vBool b => exact inferInstanceAs (Decidable True)
  | vInt w i =>
    exact inferInstanceAs (Decidable (1 ≤ w ∧ w ≤ 64 ∧ -(2 ^ (w - 1)) ≤ i ∧ i < 2 ^ (w - 1)))

/-! ### Utility lemmas about the string primitives -/

theorem cutChar_of_not_mem {c : Char} {s : Str} (h : c ∉ s) :
    cutChar c s = (s, [], false) := by
  induction s with
  | nil => rfl
  | cons x xs ih =>
    have hx : ¬ x = c := by intro e; exact h (by simp [e])
    simp [cutChar, hx, ih (by intro m; exact h (by simp [m]))]

theorem cutChar_append {c : Char} {a : Str} (b : Str) (h : c ∉ a) :
    cutChar c (a ++ c :: b) = (a, b, true) := by
  induction a with
  | nil => simp [cutChar]
  | cons x xs ih =>
    have hx : ¬ x = c := by intro e; exact h (by simp [e])
    simp [cutChar, hx, ih (by intro m; exact h (by simp [m]))]

theorem cutChar_fst_takeWhile (c : Char) (s : Str) :
    (cutChar c s).1 = s.takeWhile (fun x => !(x == c)) := by
  induction s with
  | nil => rfl
  | cons x xs ih =>
    by_cases hx : x = c
    · simp [cutChar, hx]
    · simp [cutChar, hx, ih]

theorem dropWhile_eq_self_of {p : Char → Bool} {s : Str} (h : ∀ c ∈ s, p c = false) :
    s.dropWhile p = s := by
  cases s with
  | nil => rfl
  | cons x xs => simp [List.dropWhile_cons, h x (by simp)]

theorem trimSpace_eq_self {s : Str} (h : ∀ c ∈ s, goIsSpace c = false) :
    trimSpace s = s := by
  unfold trimSpace
  rw [dropWhile_eq_self_of h,
    dropWhile_eq_self_of (by intro c hc; exact h c (by simpa using hc)),
    List.reverse_reverse]

theorem splitLines_append {a : Str} (b : Str) (h : '\n' ∉ a) :
    splitLines (a ++ '\n' :: b) = a :: splitLines b := by
  induction a with
  | nil => simp [splitLines]
  | cons x xs ih =>
    have hx : ¬ x = '\n' := by intro e; exact h (by simp [e])
    have ih' := ih (by intro m; exact h (by simp [m]))
    simp only [List.cons_append, splitLines, if_neg hx, List.append_eq, ih']

theorem isPrefixOf_append_cases : ∀ (p a b : Str),
    p.isPrefixOf (a ++ b) = true →
    p.isPrefixOf a = true ∨ ∃ q, p = a ++ q ∧ q.isPrefixOf b = true := by
  intro p a
  induction a generalizing p with
  | nil => intro b h; exact Or.inr ⟨p, rfl, h⟩
  | cons x xs ih =>
    intro b h
    cases p with
    | nil => exact Or.inl rfl
    | cons y ys =>
      simp only [List.cons_append, List.isPrefixOf, Bool.and_eq_true, beq_iff_eq] at h
      obtain ⟨rfl, h2⟩ := h
      rcases ih ys b h2 with hl | ⟨q, rfl, hq⟩
      · exact Or.inl (by simp [List.isPrefixOf, hl])
      · exact Or.inr ⟨q, rfl, hq⟩

theorem getenvOpt_append (a b : Env) (k : Str) :
    getenvOpt (a ++ b) k = (getenvOpt b k).or (getenvOpt a k) := by
  induction a with
  | nil => simp [getenvOpt]
  | cons p rest ih =>
    cases p with
    | mk k' v => simp [getenvOpt, ih, Option.or_assoc]

theorem getenvOpt_eq_none {env : Env} {k : Str} (h : ∀ p ∈ env, p.1 ≠ k) :
    getenvOpt env k = none := by
  induction env with
  | nil => rfl
  | cons p rest ih =>
    cases p with
    | mk k' v =>
      have hk : k' ≠ k := h (k', v) (by simp)
      simp [getenvOpt, ih (fun q hq => h q (by simp [hq])), hk]

/-! ### Decimal digits: formatting and parsing round trip -/

theorem digitVal?_digitChar {d : Nat} (h : d < 10) :
    digitVal? (Nat.digitChar d) = some d := by
  interval_cases d <;> decide

theorem digitsVal?_snoc (a : Str) (c : Char) :
    digitsVal? (a ++ [c]) =
      (digitsVal? a).bind fun x => (digitVal? c).map fun d => x * 10 + d := by
  unfold digitsVal?
  rw [List.foldl_append]
  rfl

theorem digitsVal?_natReprAux : ∀ (fuel n : Nat), n < fuel →
    digitsVal? (natReprAux fuel n) = some n := by
  intro fuel
  induction fuel with
  | zero => intro n h; omega
  | succ fuel ih =>
    intro n h
    by_cases h10 : n < 10
    · simp [natReprAux, h10, digitsVal?, digitVal?_digitChar h10]
    · have hd : n / 10 < fuel := by
        have : n / 10 < n := Nat.div_lt_self (by omega) (by omega)
        omega
      simp only [natReprAux, if_neg h10]
      rw [digitsVal?_snoc, ih _ hd]
      simp [digitVal?_digitChar (Nat.mod_lt n (by omega))]
      omega

theorem natReprAux_chars : ∀ (fuel n : Nat) (c : Char), c ∈ natReprAux fuel n →
    ∃ d, d < 10 ∧ c = Nat.digitChar d := by
  intro fuel
  induction fuel with
  | zero => intro n c h; simp [natReprAux] at h
  | succ fuel ih =>
    intro n c h
    by_cases h10 : n < 10
    · simp [natReprAux, h10] at h
      exact ⟨n, h10, h⟩
    · simp only [natReprAux, if_neg h10, List.mem_append, List.mem_singleton] at h
      rcases h with h | h
      · exact ih _ _ h
      · exact ⟨n % 10, Nat.mod_lt _ (by omega), h⟩

theorem natReprAux_ne_nil (fuel n : Nat) (h : 0 < fuel) : natReprAux fuel n ≠ [] := by
  cases fuel with
  | zero => omega
  | succ fuel => by_cases h10 : n < 10 <;> simp [natReprAux, h10]

theorem digitChar_props {d : Nat} (h : d < 10) :
    goIsSpace (Nat.digitChar d) = false ∧ Nat.digitChar d ≠ '#' ∧
    Nat.digitChar d ≠ '"' ∧ Nat.digitChar d ≠ '\'' ∧ Nat.digitChar d ≠ '=' ∧
    Nat.digitChar d ≠ '-' ∧ Nat.digitChar d ≠ '+' ∧ Nat.digitChar d ≠ '\n' ∧
    Nat.digitChar d ≠ ' ' := by
  interval_cases d <;> decide

theorem natRepr_val (n : Nat) : digitsVal? (natRepr n) = some n :=
  digitsVal?_natReprAux (n + 1) n (Nat.lt_succ_self n)

theorem natRepr_ne_nil (n : Nat) : natRepr n ≠ [] :=
  natReprAux_ne_nil _ _ (Nat.succ_pos n)

theorem natRepr_chars {n : Nat} {c : Char} (h : c ∈ natRepr n) :
    ∃ d, d < 10 ∧ c = Nat.digitChar d :=
  natReprAux_chars _ _ _ h

theorem goParseInt64_intRepr {i : Int} (h1 : -(2 ^ 63) ≤ i) (h2 : i < 2 ^ 63) :
    goParseInt64 (intRepr i) = some i := by
  by_cases hneg : i < 0
  · simp only [intRepr, if_pos hneg]
    have hne : natRepr i.natAbs ≠ [] := natRepr_ne_nil _
    have hval := natRepr_val i.natAbs
    have hle : i.natAbs ≤ 2 ^ 63 := by omega
    have step : goParseInt64 ('-' :: natRepr i.natAbs)
        = if i.natAbs ≤ 2 ^ 63 then some (-(i.natAbs : Int)) else none := by
      simp only [goParseInt64, reduceIte]
      rw [if_neg hne, hval]
    rw [step, if_pos hle]
    simp only [Option.some.injEq]
    omega
  · obtain ⟨c, rest, hs⟩ : ∃ c rest, natRepr i.toNat = c :: rest := by
      cases h : natRepr i.toNat with
      | nil => exact absurd h (natRepr_ne_nil _)
      | cons c rest => exact ⟨c, rest, rfl⟩
    have hc : ∃ d, d < 10 ∧ c = Nat.digitChar d :=
      natRepr_chars (by rw [hs]; simp)
    obtain ⟨d, hd, rfl⟩ := hc
    have hcm : Nat.digitChar d ≠ '-' := (digitChar_props hd).2.2.2.2.2.1
    have hcp : Nat.digitChar d ≠ '+' := (digitChar_props hd).2.2.2.2.2.2.1
    have hval := natRepr_val i.toNat
    rw [hs] at hval
    have hlt : i.toNat < 2 ^ 63 := by omega
    simp only [intRepr, if_neg hneg, hs, goParseInt64, if_neg hcm, if_neg hcp]
    simp only [reduceCtorEq, if_neg, hval, if_pos hlt]
    have : ((i.toNat : Nat) : Int) = i := by omega
    simp [this]

theorem truncInt_eq_self {w : Nat} {i : Int} (hw : 1 ≤ w)
    (h1 : -(2 ^ (w - 1)) ≤ i) (h2 : i < 2 ^ (w - 1)) :
    truncInt w i = i := by
  have hpow : (2 : Int) ^ w = 2 ^ (w - 1) * 2 := by
    conv_lhs => rw [show w = (w - 1) + 1 by omega]
    rw [pow_succ]
  unfold truncInt
  rw [Int.emod_eq_of_lt (by omega) (by omega)]
  omega

/-! ### Claim theorems: value normalizer and collector -/

/-- C4: when a raw value opens with a quote character (`"` or `'`) and that
same quote occurs again later, `quotes` returns exactly the text strictly
between the opening quote and its first later occurrence, verbatim — a `#`
inside the quotes is preserved, and everything after the closing quote
(inline comments included) is discarded. -/
theorem C4_quoted_value_verbatim (q : Char) (a b : Str)
    (hq : q = '"' ∨ q = '\'') (ha : q ∉ a) :
    quotes (q :: (a ++ q :: b)) = a := by
  rcases hq with rfl | rfl <;> simp [quotes, cutChar_append b ha]

/-- Witness for C4: the spec's inline-comment example, with a `#` kept
inside the quoted content. -/
theorem C4_witness :
    quotes ('"' :: ("se#cret".toList ++ '"' :: " # inline comment".toList)) =
      "se#cret".toList :=
  C4_quoted_value_verbatim '"' "se#cret".toList " # inline comment".toList
    (Or.inl rfl) (by decide)

/-- C5: when a raw value opens with a quote character that never recurs
(unterminated quote), `quotes` drops only that leading quote, cuts the rest
at the first `#`, and trims surrounding whitespace. -/
theorem C5_unterminated_quote (q : Char) (rest : Str)
    (hq : q = '"' ∨ q = '\'') (hnq : q ∉ rest) :
    quotes (q :: rest) = trimSpace (rest.takeWhile (fun c => !(c == '#'))) := by
  rcases hq with rfl | rfl <;>
    simp [quotes, cutChar_of_not_mem hnq, cutChar_fst_takeWhile]

/-- Witness for C5: a solitary opening quote followed by a `#` comment. -/
theorem C5_witness : quotes ('\'' :: " abc #x".toList) = "abc".toList :=
  (C5_unterminated_quote '\'' " abc #x".toList (Or.inr rfl) (by decide)).trans
    (by decide)

/-- C2: the `Collect` of `src/dotenv.go` (line 38) calls
`strings.HasPrefix("#", line)` with swapped arguments, so a comment line
that contains `=` is NOT skipped: on a file whose text is `#A=B\nX=1` it
extracts key `#A` and writes the store, against the spec and against the
function's own doc comment (`Comments starting with "#"`). -/
theorem C2_dotenv_go_comment_line_written :
    CollectDotenvGo [some "#A=B\nX=1".toList] =
      [("#A".toList, "B".toList), ("X".toList, "1".toList)] := by decide

/-- Counterexample for C3: on the same file the `Collect` of
`unnamed/part_001` skips the comment line, so the two copies are not
extensionally equal. -/
theorem C3_counterexample :
    CollectDotenvGo [some "#A=B\nX=1".toList] ≠
      CollectPart001 [some "#A=B\nX=1".toList] := by decide

/-! ### Claim theorems: coercions -/

/-- Counterexample for C1: decoding `"300"` into an 8-bit field succeeds
with the wrapped value 44 instead of returning a coercion error —
`setField` parses with `strconv.ParseInt(value, 10, 64)` and
`reflect.Value.SetInt` truncates to the field's width without error. -/
theorem C1_counterexample :
    Unmarshal [("K".toList, "300".toList)] [⟨"F".toList, "K".toList, .vInt 8 0⟩] =
      ([⟨"F".toList, "K".toList, .vInt 8 44⟩], none) := by decide

/-- Counterexample for C10: `strconv.ParseBool` is a twelve-literal case
switch, not case-insensitive matching — `"tRuE"` is rejected with a
coercion error naming the field. -/
theorem C10_counterexample :
    Unmarshal [("K".toList, "tRuE".toList)] [⟨"F".toList, "K".toList, .vBool false⟩] =
      ([⟨"F".toList, "K".toList, .vBool false⟩], some ⟨"F".toList⟩) := by decide

/-! ### Claim theorems: decode skip and abort behavior -/

/-- C9: a tagged field whose key is unset in the store, or whose stored
value is the empty string, is skipped: the field keeps its prior value, the
call does not fail on its account, and the two cases yield the identical
result (`os.Getenv` collapses both to `""`). -/
theorem C9_absent_or_empty_skips (env : Env) (f : GoField) (fs : List GoField)
    (h : getenvOpt env f.tag = none ∨ getenvOpt env f.tag = some []) :
    Unmarshal env (f :: fs) = (f :: (Unmarshal env fs).1, (Unmarshal env fs).2) := by
  have hv : getenv env f.tag = [] := by
    rcases h with h | h <;> simp [getenv, h]
  by_cases ht : f.tag = []
  · simp [Unmarshal, ht]
  · simp [Unmarshal, ht, hv]

/-- Witness for C9: once with the key absent, once with it set to `""`;
both leave the field's value `"keep"` untouched and return no error. -/
theorem C9_witness :
    Unmarshal [("B".toList, [])] [⟨"F".toList, "K".toList, .vStr "keep".toList⟩] =
        ([⟨"F".toList, "K".toList, .vStr "keep".toList⟩], none) ∧
      Unmarshal [("K".toList, [])] [⟨"F".toList, "K".toList, .vStr "keep".toList⟩] =
        ([⟨"F".toList, "K".toList, .vStr "keep".toList⟩], none) := by
  constructor
  · exact (C9_absent_or_empty_skips _ _ _ (Or.inl (by decide))).trans (by decide)
  · exact (C9_absent_or_empty_skips _ _ _ (Or.inr (by decide))).trans (by decide)

/-- C8: when the first coercion failure of a decode pass happens at field
`f`, the call aborts at once and returns an error carrying `f`'s name;
every earlier field keeps the value this pass assigned it (no rollback),
while `f` and every later field keep their prior values. -/
theorem C8_abort_no_rollback (env : Env) (gs post : List GoField) (f : GoField)
    (hok : ∀ g ∈ gs,
      ¬(g.tag ≠ [] ∧ getenv env g.tag ≠ [] ∧ setField g.val (getenv env g.tag) = none))
    (ht : f.tag ≠ []) (hv : getenv env f.tag ≠ [])
    (he : setField f.val (getenv env f.tag) = none) :
    Unmarshal env (gs ++ f :: post) =
      (gs.map (updField env) ++ f :: post, some ⟨f.name⟩) := by
  induction gs with
  | nil => simp [Unmarshal, ht, hv, he]
  | cons g rest ih =>
    have ih' := ih fun g' hg' => hok g' (by simp [hg'])
    have hg := hok g (by simp)
    by_cases hgt : g.tag = []
    · simp [Unmarshal, hgt, updField, ih']
    · by_cases hgv : getenv env g.tag = []
      · simp [Unmarshal, hgt, hgv, updField, ih']
      · obtain ⟨fv, hfv⟩ : ∃ fv, setField g.val (getenv env g.tag) = some fv := by
          cases hsf : setField g.val (getenv env g.tag) with
          | none => exact absurd ⟨hgt, hgv, hsf⟩ hg
          | some fv => exact ⟨fv, rfl⟩
        simp [Unmarshal, hgt, hgv, hfv, updField, ih']

/-- Witness for C8: the first field is populated from `"1"`, the second
fails on `"x"` and names field `FB`, the third keeps its prior value 5. -/
theorem C8_witness :
    Unmarshal [("A".toList, "1".toList), ("B".toList, "x".toList)]
        [⟨"FA".toList, "A".toList, .vInt 64 0⟩, ⟨"FB".toList, "B".toList, .vInt 64 0⟩,
          ⟨"FC".toList, "A".toList, .vInt 64 5⟩] =
      ([⟨"FA".toList, "A".toList, .vInt 64 1⟩, ⟨"FB".toList, "B".toList, .vInt 64 0⟩,
          ⟨"FC".toList, "A".toList, .vInt 64 5⟩], some ⟨"FB".toList⟩) := by
  have h := C8_abort_no_rollback [("A".toList, "1".toList), ("B".toList, "x".toList)]
    [⟨"FA".toList, "A".toList, .vInt 64 0⟩] [⟨"FC".toList, "A".toList, .vInt 64 5⟩]
    ⟨"FB".toList, "B".toList, .vInt 64 0⟩ (by decide) (by decide) (by decide) (by decide)
  exact h.trans (by decide)

/-! ### Amended coercion claims -/

/-- C1 (amended): for a signed integer field of any width `w`, decode parses
the text with `strconv.ParseInt(value, 10, 64)`: it returns a coercion error
naming the field exactly when the text is not a valid signed base-10 literal
in 64-bit range, and otherwise stores the parsed value reduced to the
field's width by two's-complement wrap-around — text that is in 64-bit
range but out of range for a narrower field is stored truncated, with NO
error and no panic. -/
theorem C1_int_parse64_then_truncate (w : Nat) (i0 : Int) (k name s : Str)
    (hk : k ≠ []) (hs : s ≠ []) :
    Unmarshal [(k, s)] [⟨name, k, .vInt w i0⟩] =
      (match goParseInt64 s with
        | some i => ([⟨name, k, .vInt w (truncInt w i)⟩], none)
        | none => ([⟨name, k, .vInt w i0⟩], some ⟨name⟩)) := by
  have hget : getenv [(k, s)] k = s := by simp [getenv, getenvOpt]
  cases hp : goParseInt64 s with
  | none => simp [Unmarshal, hk, hget, hs, setField, hp]
  | some i => simp [Unmarshal, hk, hget, hs, setField, hp]

/-- Witness for C1 (amended): `"300"` into a 16-bit field parses and stays
300, with no error. -/
theorem C1_witness :
    Unmarshal [("K".toList, "300".toList)] [⟨"G".toList, "K".toList, .vInt 16 0⟩] =
      ([⟨"G".toList, "K".toList, .vInt 16 300⟩], none) :=
  (C1_int_parse64_then_truncate 16 0 "K".toList "G".toList "300".toList
    (by decide) (by decide)).trans (by decide)

/-- C10 (amended): during decode a boolean field accepts exactly the twelve
literals of `strconv.ParseBool` — `1`, `t`, `T`, `true`, `TRUE`, `True` for
true and `0`, `f`, `F`, `false`, `FALSE`, `False` for false (NOT arbitrary
case mixtures) — and fails with a coercion error naming the field on any
other non-empty value. -/
theorem C10_bool_literal_switch (b0 : Bool) (k name s : Str)
    (hk : k ≠ []) (hs : s ≠ []) :
    Unmarshal [(k, s)] [⟨name, k, .vBool b0⟩] =
      (if s = "1".toList ∨ s = "t".toList ∨ s = "T".toList ∨
          s = "true".toList ∨ s = "TRUE".toList ∨ s = "True".toList then
        ([⟨name, k, .vBool true⟩], none)
      else if s = "0".toList ∨ s = "f".toList ∨ s = "F".toList ∨
          s = "false".toList ∨ s = "FALSE".toList ∨ s = "False".toList then
        ([⟨name, k, .vBool false⟩], none)
      else ([⟨name, k, .vBool b0⟩], some ⟨name⟩)) := by
  have hget : ∀ v : Str, getenv [(k, v)] k = v := fun v => by simp [getenv, getenvOpt]
  by_cases h1 : s = "1".toList ∨ s = "t".toList ∨ s = "T".toList ∨
      s = "true".toList ∨ s = "TRUE".toList ∨ s = "True".toList
  · rcases h1 with rfl | rfl | rfl | rfl | rfl | rfl <;>
      simp [Unmarshal, hk, hget, setField, goParseBool]
  · by_cases h2 : s = "0".toList ∨ s = "f".toList ∨ s = "F".toList ∨
        s = "false".toList ∨ s = "FALSE".toList ∨ s = "False".toList
    · rcases h2 with rfl | rfl | rfl | rfl | rfl | rfl <;>
        simp [Unmarshal, hk, hget, setField, goParseBool, h1]
    · have hpb : goParseBool s = none := by
        unfold goParseBool
        rw [if_neg h1, if_neg h2]
      simp at h1 h2
      simp [Unmarshal, hk, hget, hs, setField, hpb, h1, h2]

/-- Witness for C10 (amended): `"True"` is accepted, giving `true`. -/
theorem C10_witness :
    Unmarshal [("K".toList, "True".toList)] [⟨"F".toList, "K".toList, .vBool false⟩] =
      ([⟨"F".toList, "K".toList, .vBool true⟩], none) :=
  (C10_bool_literal_switch false "K".toList "F".toList "True".toList
    (by decide) (by decide)).trans (by decide)

/-! ### Amended collector equivalence -/

theorem flatMap_congr_mem {α β : Type} {l : List α} {f g : α → List β}
    (h : ∀ a ∈ l, f a = g a) : l.flatMap f = l.flatMap g := by
  induction l with
  | nil => rfl
  | cons x xs ih =>
    simp [List.flatMap_cons, h x (by simp), ih fun a ha => h a (by simp [ha])]

theorem procLine_skip_agree {line : Str}
    (h : List.isPrefixOf ['#'] (stripExport line) = true → '=' ∉ stripExport line) :
    procLine skipDotenvGo line = procLine skipPart001 line := by
  unfold procLine
  cases hl : stripExport line with
  | nil => rfl
  | cons x rest =>
    rw [hl] at h
    by_cases hx : x = '#'
    · subst hx
      have hmem : '=' ∉ '#' :: rest := h (by simp [List.isPrefixOf])
      cases rest with
      | nil => rfl
      | cons r rs =>
        simp [skipDotenvGo, skipPart001, List.isPrefixOf,
          cutChar_of_not_mem hmem]
    · simp [skipDotenvGo, skipPart001, List.isPrefixOf, hx, Ne.symm hx]

/-- C3 (amended): the two `Collect` copies (`dotenv.go` and
`unnamed/part_001`) perform the same sequence of Environment Store writes
on every file list in which no line, after export-prefix handling, both
begins with `#` and contains `=`; on such lines they differ
(`C3_counterexample`): the `dotenv.go` copy writes a `#`-prefixed key where
the `part_001` copy skips the line as a comment. -/
theorem C3_collect_agree_without_eq_comments (files : List (Option Str))
    (h : ∀ c ∈ files, ∀ line ∈ splitLines (c.getD []),
      List.isPrefixOf ['#'] (stripExport line) = true → '=' ∉ stripExport line) :
    CollectDotenvGo files = CollectPart001 files := by
  unfold CollectDotenvGo CollectPart001 collectWrites
  apply flatMap_congr_mem
  intro c hc
  cases c with
  | none => rfl
  | some content =>
    have hlines := h (some content) hc
    simp only [Option.getD] at hlines
    unfold collectFile
    by_cases hlen : content.length ≤ 1
    · simp [hlen]
    · simp only [if_neg hlen]
      exact flatMap_congr_mem fun line hline => procLine_skip_agree (hlines line hline)

/-- Witness for C3 (amended): a file with a pure comment line, a blank line
and an `export`ed pair, plus one unreadable file. -/
theorem C3_witness :
    CollectDotenvGo [some "# note\n\nexport A=1\n".toList, none] =
      CollectPart001 [some "# note\n\nexport A=1\n".toList, none] :=
  C3_collect_agree_without_eq_comments
    [some "# note\n\nexport A=1\n".toList, none] (by decide)

/-! ### Marshal line structure -/

theorem mem_qwrap {c : Char} {v : Str} (h : c ∈ qwrap v) : c ∈ v ∨ c = '"' := by
  by_cases hs : ' ' ∈ v
  · simp [qwrap, hs] at h
    tauto
  · simp [qwrap, hs] at h
    exact Or.inl h

theorem splitLines_marshal (fields : List GoField)
    (h : ∀ f ∈ fields, f.tag ≠ [] → '\n' ∉ f.tag ∧ '\n' ∉ formatVal f.val) :
    splitLines (Marshal fields) =
      (fields.flatMap fun f =>
        if f.tag = [] then [] else [f.tag ++ '=' :: qwrap (formatVal f.val)]) ++ [[]] := by
  induction fields with
  | nil => rfl
  | cons f fs ih =>
    have ih' := ih fun g hg => h g (by simp [hg])
    by_cases ht : f.tag = []
    · simpa [Marshal, marshalField, ht] using ih'
    · have h2 := h f (by simp) ht
      have hnl : '\n' ∉ f.tag ++ '=' :: qwrap (formatVal f.val) := by
        intro hm
        rcases List.mem_append.mp hm with hm | hm
        · exact h2.1 hm
        · rcases List.mem_cons.mp hm with hm | hm
          · exact absurd hm (by decide)
          · rcases mem_qwrap hm with hm | hm
            · exact h2.2 hm
            · exact absurd hm (by decide)
      have hsplit : Marshal (f :: fs) =
          (f.tag ++ '=' :: qwrap (formatVal f.val)) ++ '\n' :: Marshal fs := by
        simp [Marshal, marshalField, ht]
      rw [hsplit, splitLines_append _ hnl, ih']
      simp [ht]

/-- Counterexample for C7: the value `a<tab>b` contains whitespace (a tab)
yet `Marshal` does not wrap it in double quotes, because the source tests
`strings.Contains(value, " ")` — a space only. -/
theorem C7_counterexample :
    Marshal [⟨"F".toList, "K".toList, .vStr "a\tb".toList⟩] = "K=a\tb\n".toList ∧
      "K=a\tb\n".toList ≠ "K=\"a\tb\"\n".toList := by decide

/-- C7 (amended): `Marshal` emits, in field declaration order, exactly one
newline-terminated `KEY=VALUE` line per tagged field and nothing for an
untagged field, and the value text is wrapped in double quotes if and only
if it contains a SPACE character (U+0020) — other whitespace such as tab or
newline does not trigger quoting.  Stated through the line decomposition of
the output: splitting on newlines yields one line per tagged field followed
by the empty piece after the final newline. -/
theorem C7_marshal_quotes_iff_space (fields : List GoField)
    (h : ∀ f ∈ fields, f.tag ≠ [] → '\n' ∉ f.tag ∧ '\n' ∉ formatVal f.val) :
    splitLines (Marshal fields) =
      (fields.flatMap fun f =>
        if f.tag = [] then []
        else [f.tag ++ '=' ::
          (if (formatVal f.val).contains ' ' = true then '"' :: (formatVal f.val ++ ['"'])
            else formatVal f.val)]) ++ [[]] := by
  rw [splitLines_marshal fields h]
  rfl

/-- Witness for C7 (amended): a spaced value is quoted, a tabbed value is
not, an untagged field is absent. -/
theorem C7_witness :
    splitLines (Marshal [⟨"H".toList, "HOST".toList, .vStr "a b".toList⟩,
        ⟨"T".toList, "TAB".toList, .vStr "a\tb".toList⟩,
        ⟨"I".toList, [], .vStr "x".toList⟩]) =
      ["HOST=\"a b\"".toList, "TAB=a\tb".toList, []] :=
  (C7_marshal_quotes_iff_space _ (by decide)).trans (by decide)

/-! ### Round trip: character-level facts -/

theorem intRepr_ne_nil (i : Int) : intRepr i ≠ [] := by
  unfold intRepr
  by_cases hneg : i < 0
  · simp [hneg]
  · simp [hneg, natRepr_ne_nil]

theorem intRepr_chars {i : Int} {c : Char} (hc : c ∈ intRepr i) :
    c = '-' ∨ ∃ d, d < 10 ∧ c = Nat.digitChar d := by
  unfold intRepr at hc
  by_cases hneg : i < 0
  · simp [hneg] at hc
    rcases hc with rfl | hc
    · exact Or.inl rfl
    · exact Or.inr (natRepr_chars hc)
  · simp [hneg] at hc
    exact Or.inr (natRepr_chars hc)

theorem formatVal_chars {fv : FieldVal} (hv : ValOK fv) :
    ∀ c ∈ formatVal fv, c ≠ '#' ∧ c ≠ '"' ∧ c ≠ '\'' ∧ c ≠ '\n' ∧
      (goIsSpace c = true → c = ' ') := by
  cases fv with
  | vStr s =>
    intro c hc
    simp only [formatVal] at hc
    have h := hv c hc
    have hn : c ≠ '\n' := by
      intro e
      subst e
      exact absurd (h.2.2.2 (by decide)) (by decide)
    exact ⟨h.1, h.2.1, h.2.2.1, hn, h.2.2.2⟩
  | vBool b => cases b <;> decide
  | vInt w i =>
    intro c hc
    simp only [formatVal] at hc
    rcases intRepr_chars hc with rfl | ⟨d, hd, rfl⟩
    · exact ⟨by decide, by decide, by decide, by decide, by decide⟩
    · have hp := digitChar_props hd
      exact ⟨hp.2.1, hp.2.2.1, hp.2.2.2.1, hp.2.2.2.2.2.2.2.1,
        fun hsp => absurd hsp (by simp [hp.1])⟩

theorem isPrefixOf_self (l : Str) : l.isPrefixOf l = true := by
  induction l with
  | nil => rfl
  | cons x xs ih => simp [List.isPrefixOf, ih]

theorem quotes_qwrap {v : Str}
    (hfacts : ∀ c ∈ v, c ≠ '#' ∧ c ≠ '"' ∧ c ≠ '\'' ∧ (goIsSpace c = true → c = ' ')) :
    quotes (qwrap v) = v := by
  by_cases hs : ' ' ∈ v
  · have hq : '"' ∉ v := fun hm => (hfacts _ hm).2.1 rfl
    have hw : qwrap v = '"' :: (v ++ '"' :: []) := by simp [qwrap, hs]
    rw [hw]
    simp [quotes, cutChar_append [] hq]
  · have hw : qwrap v = v := by simp [qwrap, hs]
    rw [hw]
    cases hv : v with
    | nil => rfl
    | cons x rest =>
      have hx := hfacts x (by rw [hv]; simp)
      have hnq : ¬(x = '"' ∨ x = '\'') := by
        rintro (rfl | rfl)
        · exact hx.2.1 rfl
        · exact hx.2.2.1 rfl
      have hhash : '#' ∉ x :: rest := by
        rw [← hv]
        intro hm
        exact (hfacts _ hm).1 rfl
      have hnospace : ∀ c ∈ x :: rest, goIsSpace c = false := by
        rw [← hv]
        intro c hc
        cases hb : goIsSpace c with
        | false => rfl
        | true =>
          have hce := (hfacts c hc).2.2.2 hb
          exact absurd (hce ▸ hc) (hv ▸ hs)
      simp [quotes, hnq, cutChar_of_not_mem hhash, trimSpace_eq_self hnospace]

/-! ### Round trip: writes produced by the collector on Marshal output -/

theorem writes_keys {fields : List GoField} {p : Str × Str}
    (hp : p ∈ fields.flatMap fun g => if g.tag = [] then [] else [(g.tag, formatVal g.val)]) :
    p.1 ∈ fields.filterMap fun f => if f.tag = [] then none else some f.tag := by
  induction fields with
  | nil => simp at hp
  | cons g rest ih =>
    rw [List.flatMap_cons, List.mem_append] at hp
    rw [List.filterMap_cons]
    by_cases ht : g.tag = []
    · simp only [ht, reduceIte] at hp ⊢
      rcases hp with hp | hp
      · simp at hp
      · exact ih hp
    · simp only [if_neg ht] at hp ⊢
      rcases hp with hp | hp
      · simp only [List.mem_singleton] at hp
        simp [hp]
      · simp [ih hp]

theorem marshal_eq_nil {fields : List GoField} (h : ∀ f ∈ fields, f.tag = []) :
    Marshal fields = [] := by
  induction fields with
  | nil => rfl
  | cons f fs ih =>
    have hmf : marshalField f = [] := by simp [marshalField, h f (by simp)]
    have ih' := ih fun g hg => h g (by simp [hg])
    simp only [Marshal, List.map_cons, List.flatten_cons, hmf, List.nil_append]
    simpa [Marshal] using ih'

theorem marshal_length {fields : List GoField} {f0 : GoField}
    (hf : f0 ∈ fields) (ht : f0.tag ≠ []) : 2 ≤ (Marshal fields).length := by
  induction fields with
  | nil => cases hf
  | cons g rest ih =>
    have hlen : (Marshal (g :: rest)).length =
        (marshalField g).length + (Marshal rest).length := by
      simp [Marshal]
    rcases List.mem_cons.mp hf with rfl | hf'
    · have h3 : 3 ≤ (marshalField f0).length := by
        cases htag : f0.tag with
        | nil => exact absurd htag ht
        | cons t ts =>
          simp [marshalField, htag]
          omega
      omega
    · have := ih hf'
      omega

theorem procLine_marshal_line {tag : Str} {fv : FieldVal}
    (heq : '=' ∉ tag) (hhash : tag.head? ≠ some '#')
    (hexp : exportKw.isPrefixOf tag = false)
    (hv : ValOK fv) (ht : tag ≠ []) :
    procLine skipPart001 (tag ++ '=' :: qwrap (formatVal fv)) = [(tag, formatVal fv)] := by
  have hnoexp : ¬ exportKw.isPrefixOf (tag ++ '=' :: qwrap (formatVal fv)) = true := by
    intro hb
    rcases isPrefixOf_append_cases _ _ _ hb with hl | ⟨q, hq, hqpre⟩
    · rw [hl] at hexp
      cases hexp
    · cases q with
      | nil =>
        rw [List.append_nil] at hq
        rw [hq, isPrefixOf_self] at hexp
        cases hexp
      | cons y ys =>
        have hy : y = '=' := by
          simp only [List.isPrefixOf, Bool.and_eq_true, beq_iff_eq] at hqpre
          exact hqpre.1
        have : ('=' : Char) ∈ exportKw := by
          rw [hq, hy]
          simp
        exact absurd this (by decide)
  obtain ⟨t, ts, rfl⟩ : ∃ t ts, tag = t :: ts := by
    cases tag with
    | nil => exact absurd rfl ht
    | cons t ts => exact ⟨t, ts, rfl⟩
  have htne : t ≠ '#' := by simpa using hhash
  have hid : stripExport ((t :: ts) ++ '=' :: qwrap (formatVal fv)) =
      (t :: ts) ++ '=' :: qwrap (formatVal fv) := by
    unfold stripExport
    rw [if_neg hnoexp]
  have hskip : skipPart001 ((t :: ts) ++ '=' :: qwrap (formatVal fv)) = false := by
    simp [skipPart001, List.isPrefixOf, Ne.symm htne]
  have hfacts : ∀ c ∈ formatVal fv,
      c ≠ '#' ∧ c ≠ '"' ∧ c ≠ '\'' ∧ (goIsSpace c = true → c = ' ') := by
    intro c hc
    have h := formatVal_chars hv c hc
    exact ⟨h.1, h.2.1, h.2.2.1, h.2.2.2.2⟩
  simp only [procLine, hid, hskip, cutChar_append _ heq, quotes_qwrap hfacts]
  simp

theorem collectFile_marshal (fields : List GoField)
    (htag : ∀ f ∈ fields, f.tag ≠ [] →
      '=' ∉ f.tag ∧ '\n' ∉ f.tag ∧ f.tag.head? ≠ some '#' ∧
      exportKw.isPrefixOf f.tag = false)
    (hval : ∀ f ∈ fields, f.tag ≠ [] → ValOK f.val) :
    collectFile skipPart001 (Marshal fields) =
      fields.flatMap fun g => if g.tag = [] then [] else [(g.tag, formatVal g.val)] := by
  by_cases hall : ∀ f ∈ fields, f.tag = []
  · rw [marshal_eq_nil hall]
    rw [flatMap_congr_mem (g := fun _ => []) fun f hf => by simp [hall f hf]]
    simp [collectFile]
  · push_neg at hall
    obtain ⟨f0, hf0, ht0⟩ := hall
    have hlen := marshal_length hf0 ht0
    have hlines : ∀ f ∈ fields, f.tag ≠ [] → '\n' ∉ f.tag ∧ '\n' ∉ formatVal f.val := by
      intro f hf ht
      refine ⟨(htag f hf ht).2.1, fun hm => ?_⟩
      exact (formatVal_chars (hval f hf ht) _ hm).2.2.2.1 rfl
    rw [collectFile, if_neg (by omega)]
    rw [splitLines_marshal fields hlines, List.flatMap_append, List.flatMap_assoc]
    have hlast : List.flatMap [([] : Str)] (procLine skipPart001) = [] := by decide
    rw [hlast, List.append_nil]
    apply flatMap_congr_mem
    intro f hf
    by_cases ht : f.tag = []
    · simp [ht]
    · obtain ⟨h1, h2, h3, h4⟩ := htag f hf ht
      simp only [if_neg ht, List.flatMap_cons, List.flatMap_nil, List.append_nil]
      exact procLine_marshal_line h1 h3 h4 (hval f hf ht) ht

theorem lookup_writes (fields : List GoField)
    (hnd : (fields.filterMap fun f => if f.tag = [] then none else some f.tag).Nodup) :
    ∀ f ∈ fields, f.tag ≠ [] →
      getenvOpt (fields.flatMap fun g => if g.tag = [] then [] else [(g.tag, formatVal g.val)])
          f.tag = some (formatVal f.val) := by
  induction fields with
  | nil => intro f hf; cases hf
  | cons g rest ih =>
    intro f hf htf
    rw [List.flatMap_cons, getenvOpt_append]
    rcases List.mem_cons.mp hf with rfl | hf'
    · have hnotin : f.tag ∉ rest.filterMap fun f => if f.tag = [] then none else some f.tag := by
        rw [List.filterMap_cons] at hnd
        simp only [if_neg htf] at hnd
        exact (List.nodup_cons.mp hnd).1
      have hnone : getenvOpt
          (rest.flatMap fun g => if g.tag = [] then [] else [(g.tag, formatVal g.val)])
          f.tag = none :=
        getenvOpt_eq_none fun p hp e => hnotin (e ▸ writes_keys hp)
      rw [hnone]
      simp [getenvOpt, if_neg htf]
    · have hnd' : (rest.filterMap fun f => if f.tag = [] then none else some f.tag).Nodup := by
        rw [List.filterMap_cons] at hnd
        by_cases hgt : g.tag = []
        · simpa [hgt] using hnd
        · simp only [if_neg hgt] at hnd
          exact (List.nodup_cons.mp hnd).2
      rw [ih hnd' f hf' htf]
      rfl

/-! ### Round trip: decode reads back the written values -/

theorem unmarshal_writes (env : Env) (fields : List GoField)
    (hlook : ∀ f ∈ fields, f.tag ≠ [] → getenvOpt env f.tag = some (formatVal f.val))
    (hval : ∀ f ∈ fields, f.tag ≠ [] → ValOK f.val) :
    Unmarshal env (fields.map zeroField) =
      ((fields.map fun f => if f.tag = [] then zeroField f else f), none) := by
  induction fields with
  | nil => rfl
  | cons f fs ih =>
    have ih' := ih (fun g hg hgt => hlook g (by simp [hg]) hgt)
      (fun g hg hgt => hval g (by simp [hg]) hgt)
    obtain ⟨fn, ftag, fval⟩ := f
    by_cases ht : ftag = []
    · simp [Unmarshal, zeroField, ht, ih']
    · have hg : getenv env ftag = formatVal fval := by
        simp [getenv, hlook ⟨fn, ftag, fval⟩ (by simp) ht]
      have hvOK : ValOK fval := hval ⟨fn, ftag, fval⟩ (by simp) ht
      cases fval with
      | vStr s =>
        by_cases hsnil : s = []
        · subst hsnil
          simp [Unmarshal, zeroField, zeroVal, ht, hg, formatVal, ih']
        · simp [Unmarshal, zeroField, zeroVal, ht, hg, formatVal, hsnil, setField, ih']
      | vBool b =>
        have hpb : goParseBool (formatVal (.vBool b)) = some b := by cases b <;> decide
        have hne : formatVal (.vBool b) ≠ [] := by cases b <;> decide
        simp [Unmarshal, zeroField, zeroVal, ht, hg, hne, setField, hpb, ih']
      | vInt w i =>
        obtain ⟨hw1, hw64, hlo, hhi⟩ := hvOK
        have hpow : (2 : Int) ^ (w - 1) ≤ 2 ^ 63 := by
          apply pow_le_pow_right₀ <;> omega
        have hp : goParseInt64 (intRepr i) = some i :=
          goParseInt64_intRepr (by omega) (by omega)
        have hne : intRepr i ≠ [] := intRepr_ne_nil i
        have htr : truncInt w i = i := truncInt_eq_self hw1 hlo hhi
        simp [Unmarshal, zeroField, zeroVal, ht, hg, hne, setField, formatVal, hp, htr, ih']

/-! ### Claim theorems: round trip -/

/-- Counterexample for C6: the value `<tab>a` contains no `#` and no quote
character, yet encode → line-parse → decode reproduces `a`: the value is not
quoted (no space), so the line parser's `TrimSpace` eats the tab. -/
theorem C6_counterexample :
    Unmarshal (CollectPart001 [some (Marshal [⟨"F".toList, "K".toList, .vStr "\ta".toList⟩])])
        [⟨"F".toList, "K".toList, .vStr []⟩] =
      ([⟨"F".toList, "K".toList, .vStr "a".toList⟩], none) ∧
      "a".toList ≠ "\ta".toList := by decide

/-- C6 (amended): encoding a record with `Marshal`, feeding the output
through the `Collect` line parser of `unnamed/part_001` into the store, and
decoding with `Unmarshal` into a fresh same-typed record reproduces every
tagged field's scalar value, provided the tags are distinct well-formed
keys (non-empty, no `=`, no newline, not starting with `#` or the `export `
keyword) and every string value contains no `#`, no quote character, and no
whitespace other than the space character — in particular no tab, newline,
or carriage return (the extra exclusions the counterexample forces; the
spec's own exception already excludes `#` and quotes).  Integer fields are
additionally assumed in range for their declared width, as any value read
from a real Go field is.  Untagged fields stay at their zero values. -/
theorem C6_roundtrip_limited (fields : List GoField)
    (hnd : (fields.filterMap fun f => if f.tag = [] then none else some f.tag).Nodup)
    (htag : ∀ f ∈ fields, f.tag ≠ [] →
      '=' ∉ f.tag ∧ '\n' ∉ f.tag ∧ f.tag.head? ≠ some '#' ∧
      exportKw.isPrefixOf f.tag = false)
    (hval : ∀ f ∈ fields, f.tag ≠ [] → ValOK f.val) :
    Unmarshal (CollectPart001 [some (Marshal fields)]) (fields.map zeroField) =
      ((fields.map fun f => if f.tag = [] then zeroField f else f), none) := by
  have henv : CollectPart001 [some (Marshal fields)] =
      fields.flatMap fun g => if g.tag = [] then [] else [(g.tag, formatVal g.val)] := by
    unfold CollectPart001 collectWrites
    simp [collectFile_marshal fields htag hval]
  rw [henv]
  exact unmarshal_writes _ fields (lookup_writes fields hnd) hval

/-- Witness for C6 (amended): a record with a spaced string, two integer
widths (one negative 8-bit value), a boolean and an untagged field
round-trips to the original tagged values. -/
theorem C6_witness :
    Unmarshal (CollectPart001 [some (Marshal
        [⟨"H".toList, "HOST".toList, .vStr "my host".toList⟩,
          ⟨"P".toList, "PORT".toList, .vInt 64 8080⟩,
          ⟨"N".toList, "NEG".toList, .vInt 8 (-5)⟩,
          ⟨"D".toList, "DEBUG".toList, .vBool true⟩,
          ⟨"I".toList, [], .vStr "hidden".toList⟩])])
        [⟨"H".toList, "HOST".toList, .vStr []⟩, ⟨"P".toList, "PORT".toList, .vInt 64 0⟩,
          ⟨"N".toList, "NEG".toList, .vInt 8 0⟩, ⟨"D".toList, "DEBUG".toList, .vBool false⟩,
          ⟨"I".toList, [], .vStr []⟩] =
      ([⟨"H".toList, "HOST".toList, .vStr "my host".toList⟩,
        ⟨"P".toList, "PORT".toList, .vInt 64 8080⟩,
        ⟨"N".toList, "NEG".toList, .vInt 8 (-5)⟩,
        ⟨"D".toList, "DEBUG".toList, .vBool true⟩,
        ⟨"I".toList, [], .vStr []⟩], none) := by
  have h := C6_roundtrip_limited
    [⟨"H".toList, "HOST".toList, .vStr "my host".toList⟩,
      ⟨"P".toList, "PORT".toList, .vInt 64 8080⟩,
      ⟨"N".toList, "NEG".toList, .vInt 8 (-5)⟩,
      ⟨"D".toList, "DEBUG".toList, .vBool true⟩,
      ⟨"I".toList, [], .vStr "hidden".toList⟩]
    (by decide) (by decide) (by decide)
  exact h.trans (by decide)

end Dotenv
